import Mathlib

/-!
# Verification of `bookmark_cleaner.py` (chrome_bookmark_organiser)

Shallow embedding of the core of `src/bookmark_cleaner.py`:

* the path canonicalizer `get_canonical_path_segments`,
* the collector `collect_bookmarks_recursively` (with its global
  URL-dedup set and the nested merge dictionary),
* the tree builder `build_chrome_json_structure`,
* the tail of `main` (empty-roots check, empty-collection check,
  root clearing, destination placement).

Python dictionaries are embedded as insertion-ordered association lists;
the Python `set` of seen URLs is embedded as a list used only through
membership; the `'_bookmarks'` sentinel key of the merge dictionary is
represented by a separate `bookmarks` field of each merge-tree node
(faithful whenever no folder is literally named `"_bookmarks"`, which no
claim exercises).  Freshly generated GUIDs (`uuid.uuid4()`) are pure
output noise: no claim mentions them and nothing in the program reads
them back, so collected records carry only `name`, `url`, `date_added`.
-/

namespace BookmarkCleaner

open List (Perm)

open scoped List

/-- Constant `DESTINATION_ROOT_NAME` from the source (line 11). -/
def DESTINATION_ROOT_NAME : String := "bookmark_bar"

/-- Constant `CHROME_ROOT_NAMES` from the source (line 15); a Python `set` used
only through membership, embedded as a list. -/
def CHROME_ROOT_NAMES : List String :=
  ["Bookmarks Bar", "Other Bookmarks", "Mobile Bookmarks",
   "Managed Bookmarks", "Reading list"]

/-- Constant `MAX_RECURSION_DEPTH` from the source (line 18). -/
def MAX_RECURSION_DEPTH : Nat := 100

/-- Step 1 of `get_canonical_path_segments` (source lines 85-95): the
loop over `original_full_path_parts` accumulating
`user_defined_path_parts`.  A part that is not a Chrome root name is
appended; a Chrome root name is skipped while the accumulator is still
empty and appended otherwise. -/
def filterStep (acc : List String) (part : String) : List String :=
  if part ∉ CHROME_ROOT_NAMES then acc ++ [part]
  else if acc = [] then acc
  else acc ++ [part]

/-- The whole step-1 loop of `get_canonical_path_segments`. -/
def filterRootNames (parts : List String) : List String :=
  parts.foldl filterStep []

/-- Step 3 of `get_canonical_path_segments` (source lines 103-120): scan
`user_defined_path_parts` from the immediate parent towards the root,
prepending each name not yet placed; on the first already-placed name,
stop.  The Python loop walks indices `len-1, …, 0`; here the reversed
list is walked front to back.  The accumulator holds exactly the names
inserted so far, so membership in it coincides with membership in the
Python `seen_names_in_new_path` set. -/
def collapseLoop : List String → List String → List String
  | [], acc => acc
  | x :: xs, acc => if x ∈ acc then acc else collapseLoop xs (x :: acc)

/-- Steps 2-3 of `get_canonical_path_segments` combined with the
right-to-left scan entry point. -/
def collapseFromRight (l : List String) : List String :=
  collapseLoop l.reverse []

/-- Function `get_canonical_path_segments` (source lines 74-120).  When the
filtered list is empty but the original input is not (the bookmark lived
only under Chrome root names), the result is the single first segment of
the original input (line 101); otherwise the right-to-left
deduplication of the filtered list. -/
def get_canonical_path_segments (original : List String) : List String :=
  match filterRootNames original, original with
  | [], x :: _ => [x]
  | user, _ => collapseFromRight user

/-- A source-tree node, as `collect_bookmarks_recursively` distinguishes
them by the `"type"` field: `"url"` nodes (lines 132-165), `"folder"`
nodes (lines 168-178), and any other/missing type, which the function
ignores.  Optional fields are the dictionary keys read with `.get`.
A folder with no `"children"` key behaves exactly like one with an empty
list (`node.get("children", [])`), so `children` is a plain list. -/
inductive BNode where
  | url (name : Option String) (url : Option String) (dateAdded : Option String)
  | folder (name : Option String) (children : List BNode)
  | other

/-- The record built for a collected bookmark (source lines 144-150).
The freshly generated `guid` is omitted: nothing in the program reads it
back and no claim mentions it. -/
structure Bookmark where
  name : String
  url : String
  date_added : String
deriving Repr, DecidableEq

/-- The `collected_bookmarks` nested dictionary.  `folders` is the
insertion-ordered association list of folder-name keys; `bookmarks` is
the list stored under the `'_bookmarks'` sentinel key (empty when the
key is absent). -/
inductive CTree where
  | mk (folders : List (String × CTree)) (bookmarks : List Bookmark)

/-- The folder-name keys of a merge-tree node. -/
def CTree.folders : CTree → List (String × CTree)
  | .mk fs _ => fs

/-- The `'_bookmarks'` list of a merge-tree node. -/
def CTree.bookmarks : CTree → List Bookmark
  | .mk _ bs => bs

/-- Python `if not collected_bookmarks:` (line 286): the dictionary is
empty. -/
def CTree.isEmpty : CTree → Bool
  | .mk fs bs => fs.isEmpty && bs.isEmpty

/-- Source lines 154-165: navigate `collected_bookmarks` along the
canonical path, creating missing keys as empty dictionaries (a missing
key is appended at the end, in dictionary insertion order; an existing
key is updated in place), and append the bookmark to the `'_bookmarks'`
list of the final level.  Keys in the association list are unique by
construction, so updating every matching pair equals updating the one
Python dictionary slot. -/
def CTree.insert (t : CTree) (segs : List String) (b : Bookmark) : CTree :=
  match segs with
  | [] => .mk t.folders (t.bookmarks ++ [b])
  | s :: rest =>
      .mk
        (if t.folders.any (fun p => p.1 = s) then
          t.folders.map (fun p => if p.1 = s then (p.1, p.2.insert rest b) else p)
        else
          t.folders ++ [(s, (CTree.mk [] []).insert rest b)])
        t.bookmarks

/-- The two mutable accumulators of `collect_bookmarks_recursively`:
the merge dictionary and the `seen_urls` set (a list used only through
membership). -/
structure CollectState where
  collected : CTree
  seen : List String

mutual

/-- Function `collect_bookmarks_recursively` (source lines 122-178), with the
state passed explicitly.  `collectChildren` is the `for child in
node.get("children", [])` loop. -/
def collect (node : BNode) (path : List String) (st : CollectState)
    (depth : Nat) : CollectState :=
  if depth > MAX_RECURSION_DEPTH then st
  else
    match node with
    | .url nm u d =>
        match u with
        | none => st
        | some u =>
            if u = "" then st
            else if u.startsWith "javascript:" then st
            else if u ∈ st.seen then st
            else
              { collected :=
                  st.collected.insert (get_canonical_path_segments path)
                    { name := nm.getD "No Name", url := u, date_added := d.getD "0" },
                seen := u :: st.seen }
    | .folder nm children =>
        let nextPath :=
          match nm with
          | some n => if n = "" then path else path ++ [n]
          | none => path
        collectChildren children nextPath st (depth + 1)
    | .other => st

/-- The sibling loop of `collect_bookmarks_recursively` (source
line 177-178). -/
def collectChildren (nodes : List BNode) (path : List String)
    (st : CollectState) (depth : Nat) : CollectState :=
  match nodes with
  | [] => st
  | n :: rest => collectChildren rest path (collect n path st depth) depth

end

/-- The `roots` mapping of the document: root-container name to node,
in dictionary iteration (insertion) order. -/
abbrev Doc := List (String × BNode)

/-- The collection loop of `main` (source lines 275-279): every root
whose name is in `CHROME_ROOT_NAMES` is traversed with the root name as
the initial path; other roots are ignored. -/
def runCollect (roots : Doc) : CollectState :=
  roots.foldl
    (fun st p =>
      if p.1 ∈ CHROME_ROOT_NAMES then collect p.2 [p.1] st 0 else st)
    ⟨CTree.mk [] [], []⟩

/-- A child record emitted by `build_chrome_json_structure`: a folder
record (source lines 205-212; fresh guid and zero timestamps omitted as
pure output noise, like the bookmark guid) or a bookmark record carried
through unchanged. -/
inductive ChildRec where
  | folder (name : String) (children : List ChildRec)
  | url (b : Bookmark)

/-- The comparison behind `sorted(keys, key=lambda x: x.lower())`
(source line 198), lifted to association-list pairs. -/
def folderLE (a b : String × CTree) : Bool :=
  a.1.toLower ≤ b.1.toLower

/-- The comparison behind `sorted(direct_bookmarks, key=lambda x:
x['name'].lower())` (source line 216). -/
def bookmarkLE (a b : Bookmark) : Bool :=
  a.name.toLower ≤ b.name.toLower

/-- Function `build_chrome_json_structure` (source lines 180-218): folder keys
sorted case-insensitively and built recursively first, then the direct
bookmarks sorted case-insensitively.  Python's `sorted` is a stable
comparison sort, embedded as `List.mergeSort` (also stable). -/
def build_chrome_json_structure (t : CTree) : List ChildRec :=
  match t with
  | .mk fs bs =>
      ((fs.mergeSort folderLE).attach.map
        (fun p => ChildRec.folder p.1.1 (build_chrome_json_structure p.1.2)))
        ++ (bs.mergeSort bookmarkLE).map ChildRec.url
termination_by sizeOf t
decreasing_by
  obtain ⟨⟨k, sub⟩, hmem⟩ := p
  simp_wf
  have h1 : (k, sub) ∈ fs := ((List.mergeSort_perm fs folderLE).mem_iff).mp hmem
  have h2 := List.sizeOf_lt_of_mem h1
  simp only [Prod.mk.sizeOf_spec] at h2
  omega

mutual

/-- The JSON node written for a rebuilt child record: folders carry
their name and converted children, bookmark records carry their `name`,
`url` and `date_added` keys (source lines 144-150 and 205-212). -/
def ChildRec.toBNode : ChildRec → BNode
  | .folder n cs => .folder (some n) (childRecsToBNodes cs)
  | .url b => .url (some b.name) (some b.url) (some b.date_added)

/-- Pointwise conversion of a rebuilt children list. -/
def childRecsToBNodes : List ChildRec → List BNode
  | [] => []
  | c :: cs => c.toBNode :: childRecsToBNodes cs

end

/-- The outcome of a run of `main` over the tail of the function
(source lines 269-315): the constructors record which exit was taken
and the in-memory state of the `roots` mapping at that exit.  Only the
`saved` outcome reaches `save_bookmarks`; every other outcome leaves
the file on disk untouched. -/
inductive RunResult where
  | errorNoRoots (roots : Doc)
  | nothingCollected (roots : Doc)
  | errorMissingDestination (roots : Doc)
  | saved (roots : Doc)

/-- Source line 295: `bookmark_data['roots'][root_name]['children'] = []`
applied to a node that has a `children` key (folders; a `url`/untyped
root node has none in this model, and Python skips nodes without the
key). -/
def clearChildren : BNode → BNode
  | .folder nm _ => .folder nm []
  | n => n

/-- The clearing loop of `main` (source lines 293-295): every root whose
name is a Chrome root name has its children emptied. -/
def clearRoots (roots : Doc) : Doc :=
  roots.map (fun p =>
    if p.1 ∈ CHROME_ROOT_NAMES then (p.1, clearChildren p.2) else p)

/-- Source line 304: `bookmark_data["roots"][DESTINATION_ROOT_NAME]
["children"] = new_root_children`.  Ordinary bookmark files hold a
folder node there; on a non-folder node Python would attach a
`children` key that nothing afterwards reads, so the node is returned
unchanged. -/
def setChildren (node : BNode) (cs : List BNode) : BNode :=
  match node with
  | .folder nm _ => .folder nm cs
  | n => n

/-- The destination-placement step of `main` (source lines 303-304),
rewriting the children of the `DESTINATION_ROOT_NAME` entry. -/
def setDestination (roots : Doc) (cs : List BNode) : Doc :=
  roots.map (fun p => if p.1 = DESTINATION_ROOT_NAME then (p.1, setChildren p.2 cs) else p)

/-- The decision tail of `main` (source lines 269-315), starting from
the parsed `roots` mapping: the empty-`roots` check (line 270), the
collection loop (lines 275-279), the nothing-collected early return
(lines 286-289), the clearing of every Chrome root's children (lines
291-295), and the destination check and placement (lines 303-312).
Note the clearing step runs *before* the destination-presence check,
exactly as in the source. -/
def mainModel (roots : Doc) : RunResult :=
  if roots.isEmpty then .errorNoRoots roots
  else
    let st := runCollect roots
    if st.collected.isEmpty then .nothingCollected roots
    else
      let cleared := clearRoots roots
      if cleared.any (fun p => p.1 = DESTINATION_ROOT_NAME) then
        .saved (setDestination cleared
          (childRecsToBNodes (build_chrome_json_structure st.collected)))
      else
        .errorMissingDestination cleared

mutual

/-- All URLs stored anywhere in a merge-tree node, in traversal order
(folders first, then the direct `'_bookmarks'` list). -/
def CTree.urls : CTree → List String
  | .mk fs bs => urlsAssoc fs ++ bs.map (fun b => b.url)

/-- URLs of an association list of subtrees. -/
def urlsAssoc : List (String × CTree) → List String
  | [] => []
  | (_, t) :: rest => t.urls ++ urlsAssoc rest

end

mutual

/-- All URLs appearing anywhere in a rebuilt child record. -/
def ChildRec.urls : ChildRec → List String
  | .folder _ cs => urlsOfRecs cs
  | .url b => [b.url]

/-- All URLs appearing anywhere in a rebuilt children list: the URL
multiset of the destination tree. -/
def urlsOfRecs : List ChildRec → List String
  | [] => []
  | c :: cs => c.urls ++ urlsOfRecs cs

end

/-- The name that the builder's sorting compares: the folder name of a
folder record, the bookmark name of an entry record. -/
def ChildRec.nameOf : ChildRec → String
  | .folder n _ => n
  | .url b => b.name

mutual

/-- Well-formedness of a merge tree: at every node the folder-name keys
are distinct.  This holds of every tree the collector builds (a Python
dictionary cannot hold a key twice) and is preserved by `CTree.insert`. -/
def WF : CTree → Prop
  | .mk fs _ => (fs.map Prod.fst).Nodup ∧ WFAssoc fs

/-- Well-formedness of every subtree in an association list. -/
def WFAssoc : List (String × CTree) → Prop
  | [] => True
  | (_, t) :: rest => WF t ∧ WFAssoc rest

end

/-- The collector invariant: the merge tree is well formed, its URL
multiset is duplicate-free, and every URL stored in it is recorded in
`seen_urls`. -/
def Inv (st : CollectState) : Prop :=
  WF st.collected ∧ st.collected.urls.Nodup ∧
    ∀ u ∈ st.collected.urls, u ∈ st.seen

/-- The source document of the spec's basic-merge scenario: the URL
`http://x` filed at `Bookmarks Bar > Work > A` and again at
`Other Bookmarks > Work > A` (with distinct bookmark names and
timestamps so the surviving copy is identifiable). -/
def C1doc : Doc :=
  [("Bookmarks Bar", .folder none
      [.folder (some "Work") [.folder (some "A")
        [.url (some "X") (some "http://x") (some "1")]]]),
   ("Other Bookmarks", .folder none
      [.folder (some "Work") [.folder (some "A")
        [.url (some "Y") (some "http://x") (some "2")]]])]

/-- A document whose `roots` mapping holds one bookmark under
`Other Bookmarks` but has no `bookmark_bar` entry at all. -/
def C3doc : Doc :=
  [("Other Bookmarks", .folder none
      [.url (some "N") (some "http://a") none])]

/-- A document with a recognized root container that holds no bookmark
at all. -/
def C10doc : Doc :=
  [("Bookmarks Bar", .folder none [])]

example : get_canonical_path_segments ["Bookmarks Bar"] = ["Bookmarks Bar"] := by decide
example : get_canonical_path_segments ["A", "B", "A"] = ["B", "A"] := by decide
example : get_canonical_path_segments ["A", "B", "A", "B"] = ["A", "B"] := by decide
example : get_canonical_path_segments ["Bookmarks Bar", "Work", "A"] = ["Work", "A"] := by decide
example :
    get_canonical_path_segments ["Work", "Other Bookmarks", "Work"]
      = ["Other Bookmarks", "Work"] := by decide
example :
    get_canonical_path_segments ["Other Bookmarks", "Work"] = ["Work"] := by decide

/-! ## Canonicalizer lemmas -/

theorem filterStep_of_ne_nil (acc : List String) (part : String) (h : acc ≠ []) :
    filterStep acc part = acc ++ [part] := by
  simp [filterStep, h]

theorem foldl_filterStep_of_ne_nil (l : List String) :
    ∀ acc, acc ≠ [] → l.foldl filterStep acc = acc ++ l := by
  induction l with
  | nil => simp
  | cons x xs ih =>
      intro acc h
      rw [List.foldl_cons, filterStep_of_ne_nil acc x h, ih _ (by simp)]
      simp

theorem filterRootNames_cons_of_not_root (a : String) (l : List String)
    (h : a ∉ CHROME_ROOT_NAMES) : filterRootNames (a :: l) = a :: l := by
  unfold filterRootNames
  rw [List.foldl_cons]
  have h1 : filterStep [] a = [a] := by simp [filterStep, h]
  rw [h1, foldl_filterStep_of_ne_nil l [a] (by simp)]
  rfl

theorem filterRootNames_of_all_roots (l : List String)
    (h : ∀ x ∈ l, x ∈ CHROME_ROOT_NAMES) : filterRootNames l = [] := by
  unfold filterRootNames
  induction l with
  | nil => rfl
  | cons x xs ih =>
      rw [List.foldl_cons]
      have h1 : filterStep [] x = [] := by
        simp [filterStep, h x (by simp)]
      rw [h1]
      exact ih (fun y hy => h y (by simp [hy]))

theorem collapseLoop_ne_nil (l : List String) :
    ∀ acc, acc ≠ [] → collapseLoop l acc ≠ [] := by
  induction l with
  | nil => intro acc h; simpa [collapseLoop]
  | cons x xs ih =>
      intro acc h
      unfold collapseLoop
      split
      · exact h
      · exact ih _ (by simp)

theorem collapseLoop_nodup (l : List String) :
    ∀ acc, acc.Nodup → (collapseLoop l acc).Nodup := by
  induction l with
  | nil => intro acc h; simpa [collapseLoop]
  | cons x xs ih =>
      intro acc h
      unfold collapseLoop
      split
      · exact h
      · exact ih _ (by simp [h, *])

theorem collapseLoop_of_disjoint (l : List String) :
    ∀ acc, l.Nodup → (∀ x ∈ l, x ∉ acc) →
      collapseLoop l acc = l.reverse ++ acc := by
  induction l with
  | nil => intro acc _ _; simp [collapseLoop]
  | cons x xs ih =>
      intro acc hnd hdisj
      unfold collapseLoop
      rw [if_neg (hdisj x (by simp))]
      rw [ih (x :: acc) (List.Nodup.of_cons hnd)
            (fun y hy => by
              simp only [List.mem_cons, not_or]
              exact ⟨fun he => (List.nodup_cons.mp hnd).1 (he ▸ hy),
                     hdisj y (by simp [hy])⟩)]
      simp

theorem collapseFromRight_of_nodup (l : List String) (h : l.Nodup) :
    collapseFromRight l = l := by
  unfold collapseFromRight
  rw [collapseLoop_of_disjoint _ _ (List.nodup_reverse.mpr h) (by simp)]
  simp

theorem canon_ne_nil (p : List String) (h : p ≠ []) :
    get_canonical_path_segments p ≠ [] := by
  obtain ⟨x, xs, rfl⟩ := List.exists_cons_of_ne_nil h
  cases hf : filterRootNames (x :: xs) with
  | nil => simp [get_canonical_path_segments, hf]
  | cons u us =>
      have hcanon : get_canonical_path_segments (x :: xs)
          = collapseFromRight (u :: us) := by
        simp [get_canonical_path_segments, hf]
      rw [hcanon]
      unfold collapseFromRight
      have hrev : (u :: us).reverse ≠ [] := by simp
      obtain ⟨y, ys, hy⟩ := List.exists_cons_of_ne_nil hrev
      rw [hy]
      unfold collapseLoop
      rw [if_neg (by simp)]
      exact collapseLoop_ne_nil ys [y] (by simp)

theorem canon_nodup (p : List String) : (get_canonical_path_segments p).Nodup := by
  unfold get_canonical_path_segments
  split
  · simp
  · exact collapseLoop_nodup _ _ List.nodup_nil

/-! ## Claims C4-C7: the canonicalizer -/

/-- Claim C4 counterexample: canonicalization is *not* idempotent for
every non-empty input.  For `["Work", "Other Bookmarks", "Work"]` the
canonical result is `["Other Bookmarks", "Work"]` (the mid-path root
name is kept, source line 95, and survives the right-to-left collapse),
but canonicalizing that result drops its now-leading root name and
yields `["Work"]`. -/
theorem canonicalize_not_idempotent :
    get_canonical_path_segments
        (get_canonical_path_segments ["Work", "Other Bookmarks", "Work"])
      ≠ get_canonical_path_segments ["Work", "Other Bookmarks", "Work"] := by
  decide

/-- Claim C4 as amended: canonicalization is idempotent for every
non-empty input whose canonical result does not *begin* with a Chrome
root-marker name, and for every input whose canonical result is a
single segment.  (The only failures are canonical results of length at
least two that begin with a root-marker name that occurred mid-path.) -/
theorem canonicalize_idempotent_amended (p : List String) (hp : p ≠ [])
    (h : (get_canonical_path_segments p).headD "" ∉ CHROME_ROOT_NAMES ∨
         (get_canonical_path_segments p).length = 1) :
    get_canonical_path_segments (get_canonical_path_segments p)
      = get_canonical_path_segments p := by
  obtain ⟨a, rest, hq⟩ := List.exists_cons_of_ne_nil (canon_ne_nil p hp)
  by_cases ha : a ∈ CHROME_ROOT_NAMES
  · rcases h with h1 | h2
    · rw [hq] at h1
      simp at h1
      exact absurd ha h1
    · rw [hq] at h2
      simp at h2
      rw [hq, h2]
      have hf := filterRootNames_of_all_roots [a] (by simpa)
      simp [get_canonical_path_segments, hf]
  · rw [hq]
    have hf := filterRootNames_cons_of_not_root a rest ha
    have hnd : (a :: rest).Nodup := hq ▸ canon_nodup p
    simp [get_canonical_path_segments, hf,
      collapseFromRight_of_nodup _ hnd]

/-- Witness for the amended C4 at the concrete input `["Work"]`. -/
theorem canonicalize_idempotent_amended_witness :
    get_canonical_path_segments (get_canonical_path_segments ["Work"])
      = get_canonical_path_segments ["Work"] :=
  canonicalize_idempotent_amended ["Work"] (by decide) (Or.inl (by decide))

/-- Claim C5: for distinct user-defined (non-root-marker) names `A`, `B`,
the canonicalizer collapses `[A, B, A]` to `[B, A]`, `[A, B, A, B]` to
`[A, B]`, and `[A, A]` to `[A]` (right-to-left scan stopping at the
first already-placed name). -/
theorem repeat_collapse_correct (A B : String)
    (hA : A ∉ CHROME_ROOT_NAMES) (_hB : B ∉ CHROME_ROOT_NAMES) (hAB : A ≠ B) :
    get_canonical_path_segments [A, B, A] = [B, A] ∧
    get_canonical_path_segments [A, B, A, B] = [A, B] ∧
    get_canonical_path_segments [A, A] = [A] := by
  refine ⟨?_, ?_, ?_⟩
  · have hf := filterRootNames_cons_of_not_root A [B, A] hA
    simp [get_canonical_path_segments, hf, collapseFromRight,
      collapseLoop, hAB, Ne.symm hAB]
  · have hf := filterRootNames_cons_of_not_root A [B, A, B] hA
    simp [get_canonical_path_segments, hf, collapseFromRight,
      collapseLoop, hAB, Ne.symm hAB]
  · have hf := filterRootNames_cons_of_not_root A [A] hA
    simp [get_canonical_path_segments, hf, collapseFromRight,
      collapseLoop]

/-- Witness for C5 at the concrete names `"A"`, `"B"`. -/
theorem repeat_collapse_correct_witness :
    get_canonical_path_segments ["A", "B", "A"] = ["B", "A"] ∧
    get_canonical_path_segments ["A", "B", "A", "B"] = ["A", "B"] ∧
    get_canonical_path_segments ["A", "A"] = ["A"] :=
  repeat_collapse_correct "A" "B" (by decide) (by decide) (by decide)

/-- Claim C6: the canonicalizer is total and returns a non-empty sequence
for every non-empty input sequence of segments. -/
theorem canonicalize_total_nonempty (p : List String) (h : p ≠ []) :
    get_canonical_path_segments p ≠ [] :=
  canon_ne_nil p h

/-- Witness for C6 at the concrete input `["Bookmarks Bar"]`. -/
theorem canonicalize_total_nonempty_witness :
    get_canonical_path_segments ["Bookmarks Bar"] ≠ [] :=
  canonicalize_total_nonempty ["Bookmarks Bar"] (by decide)

/-- Claim C7: when every segment of a non-empty path is a Chrome
root-marker name, the canonical path is exactly the single first
segment of the original input; in particular `["Bookmarks Bar"]`
canonicalizes to itself. -/
theorem root_only_collapse (x : String) (xs : List String)
    (h : ∀ y ∈ x :: xs, y ∈ CHROME_ROOT_NAMES) :
    get_canonical_path_segments (x :: xs) = [x] := by
  have hf := filterRootNames_of_all_roots (x :: xs) h
  simp [get_canonical_path_segments, hf]

/-- Witness for C7 at the concrete input `["Bookmarks Bar"]`. -/
theorem root_only_collapse_witness :
    get_canonical_path_segments ["Bookmarks Bar"] = ["Bookmarks Bar"] :=
  root_only_collapse "Bookmarks Bar" [] (by decide)

/-! ## Merge-tree lemmas -/

theorem urlsAssoc_append (l1 l2 : List (String × CTree)) :
    urlsAssoc (l1 ++ l2) = urlsAssoc l1 ++ urlsAssoc l2 := by
  induction l1 with
  | nil => rfl
  | cons p rest ih =>
      obtain ⟨k, t⟩ := p
      simp [urlsAssoc, ih]

theorem WFAssoc_iff (fs : List (String × CTree)) :
    WFAssoc fs ↔ ∀ p ∈ fs, WF p.2 := by
  induction fs with
  | nil => simp [WFAssoc]
  | cons p rest ih =>
      obtain ⟨k, t⟩ := p
      simp [WFAssoc, ih]

theorem keys_map_update (fs : List (String × CTree)) (s : String)
    (rest : List String) (b : Bookmark) :
    ((fs.map (fun p => if p.1 = s then (p.1, p.2.insert rest b) else p)).map
        Prod.fst)
      = fs.map Prod.fst := by
  induction fs with
  | nil => rfl
  | cons p rest ih =>
      obtain ⟨k, t⟩ := p
      by_cases h : k = s <;> simp [h, ih]

theorem WF_empty : WF (CTree.mk [] []) := by
  simp [WF, WFAssoc]

theorem insert_WF (segs : List String) :
    ∀ (t : CTree) (b : Bookmark), WF t → WF (t.insert segs b) := by
  induction segs with
  | nil =>
      intro t b h
      obtain ⟨fs, bs⟩ := t
      simpa [CTree.insert, CTree.folders, CTree.bookmarks, WF] using h
  | cons s rest ih =>
      intro t b h
      obtain ⟨fs, bs⟩ := t
      rw [WF] at h
      obtain ⟨hkeys, hassoc⟩ := h
      simp only [CTree.insert, CTree.folders, CTree.bookmarks]
      split
      case isTrue hany =>
        rw [WF]
        refine ⟨?_, ?_⟩
        · rw [keys_map_update]
          exact hkeys
        · rw [WFAssoc_iff]
          intro p hp
          obtain ⟨q, hq, hqe⟩ := List.mem_map.mp hp
          by_cases hqs : q.1 = s
          · rw [if_pos hqs] at hqe
            rw [← hqe]
            exact ih q.2 b ((WFAssoc_iff fs).mp hassoc q hq)
          · rw [if_neg hqs] at hqe
            rw [← hqe]
            exact (WFAssoc_iff fs).mp hassoc q hq
      case isFalse hany =>
        rw [WF]
        have hnot : s ∉ fs.map Prod.fst := by
          intro hmem
          obtain ⟨q, hq, hqe⟩ := List.mem_map.mp hmem
          exact hany (List.any_eq_true.mpr ⟨q, hq, by simp [hqe]⟩)
        refine ⟨?_, ?_⟩
        · simp only [List.map_append, List.map_cons, List.map_nil]
          refine List.Nodup.append hkeys (List.nodup_singleton s) ?_
          intro a ha hb
          simp only [List.mem_singleton] at hb
          subst hb
          exact hnot ha
        · rw [WFAssoc_iff]
          intro p hp
          rcases List.mem_append.mp hp with hp1 | hp2
          · exact (WFAssoc_iff fs).mp hassoc p hp1
          · simp only [List.mem_singleton] at hp2
            rw [hp2]
            exact ih _ b WF_empty

theorem urlsAssoc_update_perm (s : String) (rest : List String) (b : Bookmark)
    (ih : ∀ t, WF t → (t.insert rest b).urls ~ b.url :: t.urls) :
    ∀ fs : List (String × CTree), (fs.map Prod.fst).Nodup → WFAssoc fs →
      fs.any (fun p => p.1 = s) = true →
      urlsAssoc (fs.map (fun p => if p.1 = s then (p.1, p.2.insert rest b) else p))
        ~ b.url :: urlsAssoc fs := by
  intro fs
  induction fs with
  | nil => intro _ _ hany; simp at hany
  | cons p fs2 ihfs =>
      obtain ⟨k, t⟩ := p
      intro hkeys hassoc hany
      rw [WFAssoc] at hassoc
      obtain ⟨hwt, hassoc2⟩ := hassoc
      by_cases hks : k = s
      · simp only [List.map_cons, if_pos hks]
        have htail : fs2.map (fun p => if p.1 = s then (p.1, p.2.insert rest b) else p)
            = fs2 := by
          apply List.map_congr_left ?_ |>.trans (List.map_id fs2)
          intro q hq
          have hqk : q.1 ≠ s := by
            intro hqs
            have : k ∈ fs2.map Prod.fst := by
              rw [hks, ← hqs]
              exact List.mem_map.mpr ⟨q, hq, rfl⟩
            exact (List.nodup_cons.mp (by simpa using hkeys)).1 this
          simp [hqk]
        rw [htail]
        simp only [urlsAssoc]
        exact ((ih t hwt).append_right (urlsAssoc fs2))
      · simp only [List.map_cons, if_neg hks]
        have hany2 : fs2.any (fun p => p.1 = s) = true := by
          simp only [List.any_cons] at hany
          rcases Bool.or_eq_true_iff.mp hany with h1 | h2
          · exact absurd (by simpa using h1) hks
          · exact h2
        have := ihfs (by simpa using hkeys.of_cons) hassoc2 hany2
        simp only [urlsAssoc]
        calc t.urls ++ urlsAssoc (fs2.map
              (fun p => if p.1 = s then (p.1, p.2.insert rest b) else p))
            ~ t.urls ++ (b.url :: urlsAssoc fs2) := this.append_left t.urls
          _ ~ b.url :: (t.urls ++ urlsAssoc fs2) := List.perm_middle

theorem urls_insert (segs : List String) :
    ∀ (t : CTree) (b : Bookmark), WF t →
      (t.insert segs b).urls ~ b.url :: t.urls := by
  induction segs with
  | nil =>
      intro t b _
      obtain ⟨fs, bs⟩ := t
      simp only [CTree.insert, CTree.folders, CTree.bookmarks, CTree.urls,
        List.map_append, List.map_cons, List.map_nil]
      calc urlsAssoc fs ++ (bs.map (fun b => b.url) ++ [b.url])
          = (urlsAssoc fs ++ bs.map (fun b => b.url)) ++ [b.url] := by
            rw [List.append_assoc]
        _ ~ b.url :: (urlsAssoc fs ++ bs.map (fun b => b.url)) :=
            List.perm_append_singleton _ _
  | cons s rest ih =>
      intro t b h
      obtain ⟨fs, bs⟩ := t
      rw [WF] at h
      obtain ⟨hkeys, hassoc⟩ := h
      simp only [CTree.insert, CTree.folders, CTree.bookmarks]
      split
      case isTrue hany =>
        simp only [CTree.urls]
        have := urlsAssoc_update_perm s rest b (fun t ht => ih t b ht)
          fs hkeys hassoc hany
        calc urlsAssoc (fs.map
              (fun p => if p.1 = s then (p.1, p.2.insert rest b) else p))
              ++ bs.map (fun b => b.url)
            ~ (b.url :: urlsAssoc fs) ++ bs.map (fun b => b.url) :=
              this.append_right _
          _ = b.url :: (urlsAssoc fs ++ bs.map (fun b => b.url)) := rfl
      case isFalse hany =>
        simp only [CTree.urls, urlsAssoc_append]
        have hnew : ((CTree.mk [] []).insert rest b).urls ~ [b.url] := by
          have := ih (CTree.mk [] []) b WF_empty
          simpa [CTree.urls, urlsAssoc] using this
        calc urlsAssoc fs ++ urlsAssoc [(s, (CTree.mk [] []).insert rest b)]
              ++ bs.map (fun b => b.url)
            = urlsAssoc fs ++ (((CTree.mk [] []).insert rest b).urls ++ [])
              ++ bs.map (fun b => b.url) := rfl
          _ ~ urlsAssoc fs ++ [b.url] ++ bs.map (fun b => b.url) := by
              refine Perm.append_right _ (Perm.append_left _ ?_)
              simpa using hnew
          _ ~ b.url :: (urlsAssoc fs ++ bs.map (fun b => b.url)) := by
              rw [List.append_assoc]
              exact List.perm_middle

/-! ## Collector invariant -/

mutual

theorem collect_inv (node : BNode) (path : List String) (st : CollectState)
    (depth : Nat) (h : Inv st) : Inv (collect node path st depth) := by
  cases node with
  | url nm u d =>
      simp only [collect]
      split
      · exact h
      · cases u with
        | none => exact h
        | some u =>
            show Inv (if u = "" then st
              else if u.startsWith "javascript:" = true then st
              else if u ∈ st.seen then st
              else { collected :=
                       st.collected.insert (get_canonical_path_segments path)
                         { name := nm.getD "No Name", url := u,
                           date_added := d.getD "0" },
                     seen := u :: st.seen })
            by_cases h1 : u = ""
            · rw [if_pos h1]; exact h
            · rw [if_neg h1]
              by_cases h2 : u.startsWith "javascript:" = true
              · rw [if_pos h2]; exact h
              · rw [if_neg h2]
                by_cases hseen : u ∈ st.seen
                · rw [if_pos hseen]; exact h
                · rw [if_neg hseen]
                  obtain ⟨hWF, hnd, hsub⟩ := h
                  have hperm := urls_insert (get_canonical_path_segments path)
                    st.collected
                    ⟨nm.getD "No Name", u, d.getD "0"⟩ hWF
                  refine ⟨insert_WF _ _ _ hWF, ?_, ?_⟩
                  · refine (hperm.nodup_iff).mpr ?_
                    refine List.nodup_cons.mpr ⟨?_, hnd⟩
                    intro hu
                    exact hseen (hsub _ hu)
                  · intro v hv
                    rcases List.mem_cons.mp ((hperm.mem_iff).mp hv) with hv1 | hv2
                    · exact hv1 ▸ List.mem_cons_self _ _
                    · exact List.mem_cons_of_mem _ (hsub _ hv2)
  | folder nm children =>
      simp only [collect]
      split
      · exact h
      · exact collectChildren_inv children _ st (depth + 1) h
  | other =>
      simp only [collect]
      split
      · exact h
      · exact h

theorem collectChildren_inv (nodes : List BNode) (path : List String)
    (st : CollectState) (depth : Nat) (h : Inv st) :
    Inv (collectChildren nodes path st depth) := by
  cases nodes with
  | nil => simpa [collectChildren] using h
  | cons n rest =>
      rw [collectChildren]
      exact collectChildren_inv rest path _ depth (collect_inv n path st depth h)

end

theorem runCollect_inv_aux (l : Doc) :
    ∀ st, Inv st → Inv (l.foldl
      (fun st p =>
        if p.1 ∈ CHROME_ROOT_NAMES then collect p.2 [p.1] st 0 else st) st) := by
  induction l with
  | nil => intro st h; simpa
  | cons p rest ih =>
      intro st h
      rw [List.foldl_cons]
      apply ih
      split
      · exact collect_inv _ _ _ _ h
      · exact h

theorem runCollect_inv (roots : Doc) : Inv (runCollect roots) := by
  apply runCollect_inv_aux
  refine ⟨WF_empty, ?_, ?_⟩ <;> simp [CTree.urls, urlsAssoc]

/-! ## Tree-builder lemmas -/

theorem build_eq (fs : List (String × CTree)) (bs : List Bookmark) :
    build_chrome_json_structure (.mk fs bs) =
      ((fs.mergeSort folderLE).map
        (fun p => ChildRec.folder p.1 (build_chrome_json_structure p.2)))
      ++ (bs.mergeSort bookmarkLE).map ChildRec.url := by
  simp only [build_chrome_json_structure]
  rw [List.attach_map_val (fs.mergeSort folderLE)
       (fun q => ChildRec.folder q.1 (build_chrome_json_structure q.2))]

theorem urlsOfRecs_append (l1 l2 : List ChildRec) :
    urlsOfRecs (l1 ++ l2) = urlsOfRecs l1 ++ urlsOfRecs l2 := by
  induction l1 with
  | nil => rfl
  | cons c rest ih => simp [urlsOfRecs, ih]

theorem urlsOfRecs_map_url (bs : List Bookmark) :
    urlsOfRecs (bs.map ChildRec.url) = bs.map (fun b => b.url) := by
  induction bs with
  | nil => rfl
  | cons b rest ih => simp [urlsOfRecs, ChildRec.urls, ih]

theorem urlsAssoc_eq_flatMap (l : List (String × CTree)) :
    urlsAssoc l = l.flatMap (fun p => p.2.urls) := by
  induction l with
  | nil => rfl
  | cons p rest ih =>
      obtain ⟨k, t⟩ := p
      simp [urlsAssoc, ih]

theorem build_urls_aux (n : Nat) : ∀ t : CTree, sizeOf t ≤ n →
    Perm (urlsOfRecs (build_chrome_json_structure t)) t.urls := by
  induction n with
  | zero =>
      intro t h
      obtain ⟨fs, bs⟩ := t
      simp at h
  | succ n ihn =>
      intro t h
      obtain ⟨fs, bs⟩ := t
      rw [build_eq, urlsOfRecs_append, urlsOfRecs_map_url]
      have hsize : ∀ p ∈ fs.mergeSort folderLE, sizeOf p.2 ≤ n := by
        intro p hp
        have h1 : p ∈ fs := ((List.mergeSort_perm fs folderLE).mem_iff).mp hp
        have h2 := List.sizeOf_lt_of_mem h1
        obtain ⟨k, sub⟩ := p
        simp only [Prod.mk.sizeOf_spec] at h2
        simp only [CTree.mk.sizeOf_spec] at h
        simp only
        omega
      have hinner : ∀ l : List (String × CTree), (∀ p ∈ l, sizeOf p.2 ≤ n) →
          Perm (urlsOfRecs (l.map (fun p => ChildRec.folder p.1
            (build_chrome_json_structure p.2)))) (urlsAssoc l) := by
        intro l
        induction l with
        | nil => intro _; simp [urlsOfRecs, urlsAssoc]
        | cons p rest ihl =>
            intro hb
            obtain ⟨k, sub⟩ := p
            simp only [List.map_cons, urlsOfRecs, urlsAssoc, ChildRec.urls]
            exact Perm.append (ihn sub (hb (k, sub) (List.mem_cons_self _ _)))
              (ihl (fun q hq => hb q (List.mem_cons_of_mem _ hq)))
      have hfolders :
          Perm (urlsOfRecs ((fs.mergeSort folderLE).map
            (fun p => ChildRec.folder p.1 (build_chrome_json_structure p.2))))
            (urlsAssoc fs) := by
        refine (hinner _ hsize).trans ?_
        rw [urlsAssoc_eq_flatMap, urlsAssoc_eq_flatMap]
        exact List.Perm.flatMap_right _ (List.mergeSort_perm fs folderLE)
      show Perm _ (CTree.mk fs bs).urls
      simp only [CTree.urls]
      exact Perm.append hfolders
        ((List.mergeSort_perm bs bookmarkLE).map (fun b => b.url))

theorem build_urls (t : CTree) :
    Perm (urlsOfRecs (build_chrome_json_structure t)) t.urls :=
  build_urls_aux (sizeOf t) t (Nat.le_refl _)

/-! ## Claims C2 and C9: the collector -/

/-- Claim C2: for every run (every source document), the destination tree
produced by collecting and rebuilding contains each distinct URL string
at most once — the dedup set is global across the whole merge
structure. -/
theorem global_url_uniqueness (roots : Doc) :
    (urlsOfRecs (build_chrome_json_structure
      (runCollect roots).collected)).Nodup :=
  ((build_urls (runCollect roots).collected).nodup_iff).mpr
    (runCollect_inv roots).2.1

/-- One-step unfolding of `collect` on a `url` node, matching source
lines 132-165. -/
theorem collect_url_eq (nm : Option String) (u : String) (d : Option String)
    (path : List String) (st : CollectState) (depth : Nat) :
    collect (.url nm (some u) d) path st depth =
      if depth > MAX_RECURSION_DEPTH then st
      else if u = "" then st
      else if u.startsWith "javascript:" = true then st
      else if u ∈ st.seen then st
      else { collected :=
               st.collected.insert (get_canonical_path_segments path)
                 { name := nm.getD "No Name", url := u,
                   date_added := d.getD "0" },
             seen := u :: st.seen } := by
  simp only [collect]

/-- Claim C9: deduplication is first-seen-wins.  Processing two sibling
entries with the same URL and names `n1` then `n2` is the same as
processing the first alone — the later copy is dropped entirely — and
when the URL is fresh and valid the surviving record carries the first
entry's name and timestamp. -/
theorem first_seen_wins (st : CollectState) (path : List String)
    (n1 n2 u : String) (d1 d2 : Option String) (depth : Nat) :
    collectChildren
        [.url (some n1) (some u) d1, .url (some n2) (some u) d2] path st depth
      = collect (.url (some n1) (some u) d1) path st depth ∧
    (u ∉ st.seen → u ≠ "" → u.startsWith "javascript:" = false →
      depth ≤ MAX_RECURSION_DEPTH →
      collect (.url (some n1) (some u) d1) path st depth =
        { collected :=
            st.collected.insert (get_canonical_path_segments path)
              { name := n1, url := u, date_added := d1.getD "0" },
          seen := u :: st.seen }) := by
  constructor
  · show collect (.url (some n2) (some u) d2) path
        (collect (.url (some n1) (some u) d1) path st depth) depth
      = collect (.url (some n1) (some u) d1) path st depth
    rw [collect_url_eq (some n2) u d2 path _ depth]
    by_cases hd : depth > MAX_RECURSION_DEPTH
    · rw [if_pos hd]
    · rw [if_neg hd]
      by_cases h1 : u = ""
      · rw [if_pos h1]
      · rw [if_neg h1]
        by_cases h2 : u.startsWith "javascript:" = true
        · rw [if_pos h2]
        · rw [if_neg h2]
          by_cases h3 : u ∈ st.seen
          · have hA : collect (.url (some n1) (some u) d1) path st depth = st := by
              rw [collect_url_eq, if_neg hd, if_neg h1, if_neg h2, if_pos h3]
            rw [hA, if_pos h3]
          · have hA : collect (.url (some n1) (some u) d1) path st depth =
                { collected :=
                    st.collected.insert (get_canonical_path_segments path)
                      { name := n1, url := u, date_added := d1.getD "0" },
                  seen := u :: st.seen } := by
              rw [collect_url_eq, if_neg hd, if_neg h1, if_neg h2, if_neg h3]
              rfl
            rw [hA, if_pos (List.mem_cons_self u st.seen)]
  · intro hseen h1 h2 hdep
    rw [collect_url_eq, if_neg (by omega), if_neg h1, if_neg (by simp [h2]),
      if_neg hseen]
    rfl

/-- Witness for C9: collecting `X` then `Y` for the same fresh URL from
the empty state equals collecting `X` alone, and the surviving record
carries `X`'s name and timestamp. -/
theorem first_seen_wins_witness :
    collectChildren
        [.url (some "X") (some "http://x") (some "1"),
         .url (some "Y") (some "http://x") (some "2")]
        ["Bookmarks Bar"] ⟨CTree.mk [] [], []⟩ 0
      = collect (.url (some "X") (some "http://x") (some "1"))
          ["Bookmarks Bar"] ⟨CTree.mk [] [], []⟩ 0 ∧
    collect (.url (some "X") (some "http://x") (some "1"))
        ["Bookmarks Bar"] ⟨CTree.mk [] [], []⟩ 0 =
      { collected :=
          (CTree.mk [] []).insert
            (get_canonical_path_segments ["Bookmarks Bar"])
            { name := "X", url := "http://x", date_added := "1" },
        seen := ["http://x"] } := by
  have h := first_seen_wins ⟨CTree.mk [] [], []⟩ ["Bookmarks Bar"]
    "X" "Y" "http://x" (some "1") (some "2") 0
  exact ⟨h.1, h.2 (by simp) (by decide) (by decide) (by decide)⟩

/-! ## Claim C8: the tree builder -/

theorem folderLE_trans : ∀ a b c : String × CTree,
    folderLE a b = true → folderLE b c = true → folderLE a c = true := by
  intro a b c hab hbc
  simp only [folderLE, decide_eq_true_eq] at *
  exact le_trans hab hbc

theorem folderLE_total : ∀ a b : String × CTree,
    folderLE a b || folderLE b a := by
  intro a b
  simp only [folderLE]
  rcases le_total a.1.toLower b.1.toLower with h | h <;> simp [h]

theorem bookmarkLE_trans : ∀ a b c : Bookmark,
    bookmarkLE a b = true → bookmarkLE b c = true → bookmarkLE a c = true := by
  intro a b c hab hbc
  simp only [bookmarkLE, decide_eq_true_eq] at *
  exact le_trans hab hbc

theorem bookmarkLE_total : ∀ a b : Bookmark,
    bookmarkLE a b || bookmarkLE b a := by
  intro a b
  simp only [bookmarkLE]
  rcases le_total a.name.toLower b.name.toLower with h | h <;> simp [h]

/-- Claim C8: for every merge-structure node, the builder's children list
is all folder records first, sorted case-insensitively by name, then
all entry records, sorted case-insensitively by name, never
interleaved; and rebuilding the same node twice yields the identical
list. -/
theorem deterministic_ordering (t : CTree) :
    ∃ folderRecs entryRecs,
      build_chrome_json_structure t = folderRecs ++ entryRecs ∧
      (∀ c ∈ folderRecs, ∃ nm cs, c = ChildRec.folder nm cs) ∧
      (∀ c ∈ entryRecs, ∃ b, c = ChildRec.url b) ∧
      (folderRecs.map ChildRec.nameOf).Pairwise
        (fun a b => a.toLower ≤ b.toLower) ∧
      (entryRecs.map ChildRec.nameOf).Pairwise
        (fun a b => a.toLower ≤ b.toLower) ∧
      build_chrome_json_structure t = build_chrome_json_structure t := by
  obtain ⟨fs, bs⟩ := t
  refine ⟨_, _, build_eq fs bs, ?_, ?_, ?_, ?_, rfl⟩
  · intro c hc
    obtain ⟨p, _, rfl⟩ := List.mem_map.mp hc
    exact ⟨p.1, _, rfl⟩
  · intro c hc
    obtain ⟨b, _, rfl⟩ := List.mem_map.mp hc
    exact ⟨b, rfl⟩
  · have hs := List.sorted_mergeSort folderLE_trans folderLE_total fs
    simp only [List.map_map, List.pairwise_map]
    refine hs.imp ?_
    intro a b hab
    simpa [folderLE, ChildRec.nameOf] using hab
  · have hs := List.sorted_mergeSort bookmarkLE_trans bookmarkLE_total bs
    simp only [List.map_map, List.pairwise_map]
    refine hs.imp ?_
    intro a b hab
    simpa [bookmarkLE, ChildRec.nameOf] using hab

/-! ## Claim C1: the basic-merge scenario -/

/-- What the collector actually produces on `C1doc`: a single shared
`Work > A` bucket holding one bookmark — the first-seen copy from
`Bookmarks Bar`. -/
theorem C1doc_collect :
    (runCollect C1doc).collected =
      CTree.mk [("Work", .mk [("A", .mk [] [⟨"X", "http://x", "1"⟩])] [])] [] :=
  rfl

/-- The destination children built from `C1doc`. -/
theorem C1doc_build :
    build_chrome_json_structure (runCollect C1doc).collected =
      [ChildRec.folder "Work" [ChildRec.folder "A"
        [ChildRec.url ⟨"X", "http://x", "1"⟩]]] := by
  rw [C1doc_collect]
  simp [build_eq]

/-- Claim C1 counterexample: for the spec's basic-merge document (the same
URL under `Bookmarks Bar > Work > A` and `Other Bookmarks > Work > A`)
the destination tree holds that URL *once*, not twice: the dedup set is
global across root-marker containers, and both occurrences canonicalize
to the same `Work > A` bucket. -/
theorem basic_merge_counterexample :
    (urlsOfRecs (build_chrome_json_structure
      (runCollect C1doc).collected)).count "http://x" = 1 ∧
    (urlsOfRecs (build_chrome_json_structure
      (runCollect C1doc).collected)).count "http://x" ≠ 2 := by
  rw [C1doc_build]
  decide

/-- Claim C1 as amended: for the basic-merge document exactly one entry
survives — the first-seen copy (from `Bookmarks Bar`, keeping its name
and timestamp) — filed under the single shared canonical path
`Work > A` with no root-marker bucket: occurrences under different
root-marker containers with the same user-defined subpath are merged
into one bucket and deduplicated globally. -/
theorem basic_merge_amended :
    build_chrome_json_structure (runCollect C1doc).collected =
      [ChildRec.folder "Work" [ChildRec.folder "A"
        [ChildRec.url ⟨"X", "http://x", "1"⟩]]] :=
  C1doc_build

/-! ## Claims C3 and C10: the main tail -/

/-- Claim C3 counterexample: on a document whose `roots` lacks
`bookmark_bar` but holds a bookmark under `Other Bookmarks`, the run
reports the missing destination *after* the clearing step has already
emptied the children of `Other Bookmarks` in the in-memory document
(the cleared mapping differs from the original). -/
theorem missing_destination_counterexample :
    mainModel C3doc = .errorMissingDestination
      [("Other Bookmarks", BNode.folder none [])] ∧
    [("Other Bookmarks", BNode.folder none [])] ≠ C3doc := by
  constructor
  · rfl
  · intro hEq
    simp [C3doc] at hEq

/-- Claim C3 as amended: when the destination container `bookmark_bar` is
absent from `roots`, the run reports an error and never reaches the
save step (no outcome is `saved`, so the file on disk is untouched);
but the destructive clearing of the root-marker containers' children
happens *before* the destination check, so the in-memory document at
the error exit is the cleared one, not the original. -/
theorem missing_destination_amended (roots : Doc)
    (hdest : ∀ p ∈ roots, p.1 ≠ DESTINATION_ROOT_NAME) :
    (∀ d, mainModel roots ≠ .saved d) ∧
    (roots.isEmpty = false → (runCollect roots).collected.isEmpty = false →
      mainModel roots = .errorMissingDestination (clearRoots roots)) := by
  have hany : (clearRoots roots).any
      (fun p => p.1 = DESTINATION_ROOT_NAME) = false := by
    rw [List.any_eq_false]
    intro p hp
    obtain ⟨q, hq, rfl⟩ := List.mem_map.mp hp
    by_cases hcq : q.1 ∈ CHROME_ROOT_NAMES <;> simp [hcq, hdest q hq]
  by_cases he : roots.isEmpty
  · constructor
    · intro d
      simp [mainModel, he]
    · intro h1
      rw [he] at h1
      exact absurd h1 (by simp)
  · by_cases hc : (runCollect roots).collected.isEmpty
    · constructor
      · intro d
        simp [mainModel, he, hc]
      · intro _ h2
        rw [hc] at h2
        exact absurd h2 (by simp)
    · constructor
      · intro d
        simp [mainModel, he, hc, hany]
      · intro _ _
        simp [mainModel, he, hc, hany]

/-- Witness for the amended C3 at the concrete document `C3doc`. -/
theorem missing_destination_amended_witness :
    (∀ d, mainModel C3doc ≠ .saved d) ∧
    (C3doc.isEmpty = false →
      (runCollect C3doc).collected.isEmpty = false →
      mainModel C3doc = .errorMissingDestination (clearRoots C3doc)) :=
  missing_destination_amended C3doc
    (by
      intro p hp
      simp only [C3doc, List.mem_singleton] at hp
      subst hp
      decide)

/-- Claim C10: when the collection pass finds nothing, the run stops at
the nothing-collected exit with the `roots` mapping exactly as it was:
no root container's children are cleared, the destination is not
rewritten, and the file is not saved. -/
theorem nothing_collected_no_mutation (roots : Doc)
    (h1 : roots.isEmpty = false)
    (h2 : (runCollect roots).collected.isEmpty = true) :
    mainModel roots = .nothingCollected roots := by
  simp [mainModel, h1, h2]

/-- Witness for C10 at a document with one empty root container. -/
theorem nothing_collected_no_mutation_witness :
    mainModel C10doc = .nothingCollected C10doc :=
  nothing_collected_no_mutation C10doc (by decide) (by rfl)

end BookmarkCleaner
